import Mathlib

/-!
Shallow embedding of the numeric core of `pl_py_utils` (`pl_py_utils/numpy.py`):
`row_wise_top_k`, `topk_indices` and `normalize_vec`, together with proofs of
the specified properties.

Modelling choices:
* Array elements are rationals (`ℚ`): the claims under study are about
  comparisons and selection, which depend only on the ordering of the values.
* `np.argsort` is modelled as the stable sort of the index range by value
  (ties broken by index).  numpy's default quicksort leaves tie order
  unspecified; the stable sort is one deterministic refinement of that
  contract, and every claim that depends on the exact output is evaluated on
  tie-free data, where all refinements agree.
* `np.argpartition(a, kth)` first normalises `kth` (adding `n` when
  negative) and bounds-checks the normalised index `kn` (raising
  `ValueError "kth(=kn) out of bounds (n)"` when it falls outside
  `[0, n)`); numpy skips this check entirely when the array has size 0,
  returning an empty result.  It then returns *some* permutation of the
  indices placing
  the `kth` smallest element at position `kth`, everything before it being
  `≤` and everything after being `≥`.  It is modelled as the fully sorted
  permutation, a deterministic refinement of that partition contract.
* Python `l[i:]` / `l[:i]` slices are modelled exactly, including the
  negative-index clamping rules (`l[-0:]` is the whole list).
* Python exceptions become `Except` values; `ValueError msg` and
  `ZeroDivisionError` (raised without a message by `normalize_vec`) are the
  two constructors of `NpError`.  The spec's `InvalidArgument` is
  `NpError.valueError`, its `DivisionByZero` is `NpError.zeroDivisionError`.
* A 2-D numpy array of shape (R, C) is a length-R list of length-C lists
  plus the explicit column count `ncols` (`a.shape[1]`); the input type is
  2-dimensional by construction, so the source's `a.ndim != 2` guard never
  fires in the model.
-/

namespace PlPyUtils

/-- Python exceptions raised by the numeric module: `ValueError` (the spec's
`InvalidArgument`) with its message, and `ZeroDivisionError` (the spec's
`DivisionByZero`), which `normalize_vec` raises without a message. -/
inductive NpError where
  | valueError (msg : String)
  | zeroDivisionError
deriving DecidableEq, Repr

instance {ε α : Type} [DecidableEq ε] [DecidableEq α] :
    DecidableEq (Except ε α)
  | .error e, .error e' => decidable_of_iff (e = e') (by simp)
  | .error _, .ok _ => isFalse (by simp)
  | .ok _, .error _ => isFalse (by simp)
  | .ok a, .ok a' => decidable_of_iff (a = a') (by simp)

/-- Python slice `l[i:]` for an integer `i`: a nonnegative start is clamped to
the length, a negative start counts from the end and is clamped to 0. -/
def pySliceFrom (l : List α) (i : Int) : List α :=
  if 0 ≤ i then l.drop i.toNat else l.drop (l.length - (-i).toNat)

/-- Python slice `l[:i]` for an integer `i`: a nonnegative stop is clamped to
the length, a negative stop counts from the end and is clamped to 0. -/
def pySliceTo (l : List α) (i : Int) : List α :=
  if 0 ≤ i then l.take i.toNat else l.take (l.length - (-i).toNat)

/-- The total order on indices of the value list `a` used to model
`np.argsort`: compare by value, break ties by index (stable order). -/
def idxLe (a : List ℚ) (i j : ℕ) : Prop :=
  a.getD i 0 < a.getD j 0 ∨ (a.getD i 0 = a.getD j 0 ∧ i ≤ j)

instance (a : List ℚ) : DecidableRel (idxLe a) := fun i j => by
  unfold idxLe; exact inferInstance

instance (a : List ℚ) : IsTotal ℕ (idxLe a) where
  total i j := by
    rcases lt_trichotomy (a.getD i 0) (a.getD j 0) with h | h | h
    · exact Or.inl (Or.inl h)
    · rcases Nat.le_total i j with hij | hij
      · exact Or.inl (Or.inr ⟨h, hij⟩)
      · exact Or.inr (Or.inr ⟨h.symm, hij⟩)
    · exact Or.inr (Or.inl h)

instance (a : List ℚ) : IsTrans ℕ (idxLe a) where
  trans i j k hij hjk := by
    rcases hij with h1 | ⟨e1, le1⟩
    · rcases hjk with h2 | ⟨e2, _⟩
      · exact Or.inl (h1.trans h2)
      · exact Or.inl (e2 ▸ h1)
    · rcases hjk with h2 | ⟨e2, le2⟩
      · exact Or.inl (e1 ▸ h2)
      · exact Or.inr ⟨e1.trans e2, le1.trans le2⟩

instance (a : List ℚ) : IsAntisymm ℕ (idxLe a) where
  antisymm i j hij hji := by
    rcases hij with h1 | ⟨_, le1⟩
    · rcases hji with h2 | ⟨e2, _⟩
      · exact absurd (h1.trans h2) (lt_irrefl _)
      · exact absurd (e2 ▸ h1) (lt_irrefl _)
    · rcases hji with h2 | ⟨e2, le2⟩
      · exact absurd (h2.trans_le (le_of_eq ‹_›)) (lt_irrefl _)
      · exact Nat.le_antisymm le1 le2

/-- `np.argsort(a)`: the permutation of `range a.length` ordering `a`'s values
ascending; ties (unspecified by numpy's default sort) are resolved stably. -/
def argsortQ (a : List ℚ) : List ℕ :=
  List.insertionSort (idxLe a) (List.range a.length)

/-- `np.argpartition(a, kth)`: normalise `kth` and bounds-check it against
the length exactly as numpy does — the check is skipped when the array has
size 0 (numpy returns an empty result there for any `kth`), and the error
message reports the normalised index — then return a permutation satisfying
the partition contract; the fully sorted permutation `argsortQ a` is the
deterministic refinement used. -/
def argpartition (a : List ℚ) (kth : Int) : Except NpError (List ℕ) :=
  let n : Int := a.length
  let kn := if kth < 0 then kth + n else kth
  if a.length ≠ 0 ∧ (kn < 0 ∨ n ≤ kn) then
    .error (.valueError ("kth(=" ++ toString kn ++ ") out of bounds (" ++
      toString a.length ++ ")"))
  else .ok (argsortQ a)

/-- numpy fancy indexing `a[r]` for an index vector `r` (indices in bounds in
every use below; out-of-range defaults to 0 in the model). -/
def valuesAt (a : List ℚ) (r : List ℕ) : List ℚ :=
  r.map (fun i => a.getD i 0)

/-- numpy fancy indexing `i[j]` for two index vectors. -/
def idxAt (i : List ℕ) (j : List ℕ) : List ℕ :=
  j.map (fun x => i.getD x 0)

/-- `topk_indices(a, k, ordering)` from `pl_py_utils/numpy.py`:
validate `k`, then `argpartition`, slice, and sort the selected values
(reversed for `'desc'`), returning the original indices in sorted order. -/
def topk_indices (a : List ℚ) (k : Int) (ordering : String) :
    Except NpError (List ℕ) :=
  if k < 0 then
    .error (.valueError ("k must be non-negative, got " ++ toString k))
  else
    let n := a.length
    if (n : Int) < k then
      .error (.valueError ("k (" ++ toString k ++
        ") cannot be larger than array size (" ++ toString n ++ ")"))
    else if ordering = "desc" then
      match argpartition a (-k) with
      | .error e => .error e
      | .ok p =>
        let i := pySliceFrom p (-k)
        let j := (argsortQ (valuesAt a i)).reverse
        .ok (idxAt i j)
    else if ordering = "asc" then
      match argpartition a (k - 1) with
      | .error e => .error e
      | .ok p =>
        let i := pySliceTo p k
        let j := argsortQ (valuesAt a i)
        .ok (idxAt i j)
    else
      .error (.valueError "\x60ordering\x60 must be \x27asc\x27 or \x27desc\x27")

/-- Elementwise negation of a row (`-a` on one row). -/
def negRow (row : List ℚ) : List ℚ := row.map (fun x => -x)

/-- One row of `argpartition(partition_target, top_k - 1, axis=1)[:, :top_k]`:
the partition target is the negated row for `'desc'`, and the result is the
Python slice `[:top_k]` of the (modelled) partition permutation. -/
def rowTopIdx (row : List ℚ) (top_k : Int) (sort_order : String) : List ℕ :=
  pySliceTo (argsortQ (if sort_order = "desc" then negRow row else row)) top_k

/-- One row of the optional sorting step of `row_wise_top_k`: gather the
values at `idxs`, argsort them, flip for `'desc'`, and reorder `idxs`. -/
def rowSortStep (row : List ℚ) (idxs : List ℕ) (sort_order : String) :
    List ℕ :=
  let s := argsortQ (valuesAt row idxs)
  let s2 := if sort_order = "desc" then s.reverse else s
  idxAt idxs s2

/-- `row_wise_top_k(a, top_k, sort_order, sort_within_rows)` from
`pl_py_utils/numpy.py`.  `ncols` is `a.shape[1]`; the rank-2 check of the
source is enforced by the type of `a`.  Validation, the single axis-1
`argpartition` bounds check (skipped by numpy when the array has size 0,
i.e. no rows or no columns, and reporting the normalised index), and both
the unsorted and sorted paths follow the source line by line (vectorised
numpy calls become per-row maps). -/
def row_wise_top_k (a : List (List ℚ)) (ncols : ℕ) (top_k : Int)
    (sort_order : String) (sort_within_rows : Bool) :
    Except NpError (List (List ℕ)) :=
  if (ncols : Int) < top_k then
    .error (.valueError ("top_k (" ++ toString top_k ++
      ") cannot be larger than the number of columns (" ++ toString ncols ++
      ")."))
  else if ¬(sort_order = "asc" ∨ sort_order = "desc") then
    .error (.valueError
      "sort_order must be either \x27asc\x27 or \x27desc\x27.")
  else
    let kth := top_k - 1
    let kn := if kth < 0 then kth + (ncols : Int) else kth
    if (a.length ≠ 0 ∧ ncols ≠ 0) ∧ (kn < 0 ∨ (ncols : Int) ≤ kn) then
      .error (.valueError ("kth(=" ++ toString kn ++ ") out of bounds (" ++
        toString ncols ++ ")"))
    else
      let top_k_indices := a.map (fun row => rowTopIdx row top_k sort_order)
      if ¬ sort_within_rows then .ok top_k_indices
      else
        .ok (a.map (fun row =>
          rowSortStep row (rowTopIdx row top_k sort_order) sort_order))

/-- Squared L2 norm (the sum under `np.linalg.norm`'s square root). -/
def normSq (v : List ℚ) : ℚ := (v.map (fun x => x * x)).sum

/-- `np.linalg.norm(v)`: the exact L2 norm, as a real number. -/
noncomputable def l2norm (v : List ℚ) : ℝ := Real.sqrt ((normSq v : ℚ) : ℝ)

open Classical in
/-- `normalize_vec(v)` from `pl_py_utils/numpy.py`: compute the L2 norm,
raise `ZeroDivisionError` when it equals zero, else divide elementwise. -/
noncomputable def normalize_vec (v : List ℚ) : Except NpError (List ℝ) :=
  if l2norm v = 0 then .error .zeroDivisionError
  else .ok (v.map (fun x => (x : ℝ) / l2norm v))

/-- Spec-side predicate: `r` is a correct descending top-`k` index list for
`a` — `k` distinct in-range indices, values non-increasing along `r`, and
every selected value at least every non-selected value. -/
def IsTopKDesc (a : List ℚ) (k : ℕ) (r : List ℕ) : Prop :=
  r.length = k ∧ r.Nodup ∧ (∀ i ∈ r, i < a.length) ∧
    List.Sorted (fun x y : ℚ => y ≤ x) (valuesAt a r) ∧
    ∀ i ∈ r, ∀ j, j < a.length → j ∉ r → a.getD j 0 ≤ a.getD i 0

/-- Spec-side predicate: `r` is a correct ascending top-`k` index list for
`a` — `k` distinct in-range indices, values non-decreasing along `r`, and
every selected value at most every non-selected value. -/
def IsTopKAsc (a : List ℚ) (k : ℕ) (r : List ℕ) : Prop :=
  r.length = k ∧ r.Nodup ∧ (∀ i ∈ r, i < a.length) ∧
    List.Sorted (· ≤ ·) (valuesAt a r) ∧
    ∀ i ∈ r, ∀ j, j < a.length → j ∉ r → a.getD i 0 ≤ a.getD j 0

/-! ### Basic facts about the `argsortQ` model -/

theorem argsortQ_perm (a : List ℚ) : (argsortQ a).Perm (List.range a.length) :=
  List.perm_insertionSort _ _

theorem argsortQ_sorted (a : List ℚ) : List.Sorted (idxLe a) (argsortQ a) :=
  List.sorted_insertionSort _ _

theorem argsortQ_length (a : List ℚ) : (argsortQ a).length = a.length := by
  simpa using (argsortQ_perm a).length_eq

theorem argsortQ_nodup (a : List ℚ) : (argsortQ a).Nodup :=
  ((argsortQ_perm a).nodup_iff).mpr (List.nodup_range _)

theorem mem_argsortQ {a : List ℚ} {i : ℕ} : i ∈ argsortQ a ↔ i < a.length := by
  rw [(argsortQ_perm a).mem_iff, List.mem_range]

theorem argsortQ_eq_of_sorted {a : List ℚ} {l : List ℕ}
    (hp : l.Perm (List.range a.length)) (hs : List.Sorted (idxLe a) l) :
    argsortQ a = l :=
  List.eq_of_perm_of_sorted ((argsortQ_perm a).trans hp.symm) (argsortQ_sorted a) hs

theorem valuesAt_sorted_of_sorted {a : List ℚ} {l : List ℕ}
    (hs : List.Sorted (idxLe a) l) : List.Sorted (· ≤ ·) (valuesAt a l) := by
  unfold valuesAt
  rw [List.Sorted, List.pairwise_map]
  exact hs.imp (fun h => h.elim le_of_lt (fun h2 => le_of_eq h2.1))

theorem sorted_range_idxLe {v : List ℚ} (hmono : List.Sorted (· ≤ ·) v) :
    List.Sorted (idxLe v) (List.range v.length) := by
  rw [List.Sorted, List.pairwise_iff_get]
  intro i j hij
  have hij' : (i : ℕ) < (j : ℕ) := hij
  have hiv : (i : ℕ) < v.length := by
    have := i.isLt; simpa using this
  have hjv : (j : ℕ) < v.length := by
    have := j.isLt; simpa using this
  have hi : (List.range v.length).get i = (i : ℕ) := by simp
  have hj : (List.range v.length).get j = (j : ℕ) := by simp
  rw [hi, hj]
  have hle : v.getD (i : ℕ) 0 ≤ v.getD (j : ℕ) 0 := by
    rw [List.getD_eq_getElem v 0 hiv, List.getD_eq_getElem v 0 hjv]
    have h := hmono.rel_get_of_lt
      (a := ⟨(i : ℕ), hiv⟩) (b := ⟨(j : ℕ), hjv⟩) (by simpa using hij')
    simpa using h
  rcases lt_or_eq_of_le hle with h | h
  · exact Or.inl h
  · exact Or.inr ⟨h, le_of_lt hij'⟩

theorem argsortQ_of_monotone {v : List ℚ} (hmono : List.Sorted (· ≤ ·) v) :
    argsortQ v = List.range v.length :=
  argsortQ_eq_of_sorted (List.Perm.refl _) (sorted_range_idxLe hmono)

theorem argsortQ_of_strict_decr {v : List ℚ}
    (h : List.Pairwise (fun x y : ℚ => y < x) v) :
    argsortQ v = (List.range v.length).reverse := by
  apply argsortQ_eq_of_sorted (List.reverse_perm _)
  rw [List.Sorted, List.pairwise_reverse, List.pairwise_iff_get]
  intro i j hij
  have hij' : (i : ℕ) < (j : ℕ) := hij
  have hiv : (i : ℕ) < v.length := by
    have := i.isLt; simpa using this
  have hjv : (j : ℕ) < v.length := by
    have := j.isLt; simpa using this
  have hi : (List.range v.length).get i = (i : ℕ) := by simp
  have hj : (List.range v.length).get j = (j : ℕ) := by simp
  rw [hi, hj]
  refine Or.inl ?_
  rw [List.getD_eq_getElem v 0 hiv, List.getD_eq_getElem v 0 hjv]
  have hlt := (List.pairwise_iff_get.mp h)
    ⟨(i : ℕ), hiv⟩ ⟨(j : ℕ), hjv⟩ (by simpa using hij')
  simpa using hlt

/-- The values read along `argsortQ` of a duplicate-free list are strictly
increasing. -/
theorem argsortQ_strict_of_nodup {row : List ℚ} (h : row.Nodup) :
    List.Pairwise (fun i j => row.getD i 0 < row.getD j 0) (argsortQ row) := by
  have hs := argsortQ_sorted row
  have hn := argsortQ_nodup row
  refine (hs.and hn).imp_of_mem ?_
  intro i j hi hj hij
  rcases hij.1 with hlt | ⟨heq, _⟩
  · exact hlt
  · exfalso
    apply hij.2
    have hi' : i < row.length := mem_argsortQ.mp hi
    have hj' : j < row.length := mem_argsortQ.mp hj
    have hinj := List.nodup_iff_injective_get.mp h
    have hget : row.get ⟨i, hi'⟩ = row.get ⟨j, hj'⟩ := by
      have h1 : row.getD i 0 = row.get ⟨i, hi'⟩ := by
        rw [List.getD_eq_getElem row 0 hi']; simp
      have h2 : row.getD j 0 = row.get ⟨j, hj'⟩ := by
        rw [List.getD_eq_getElem row 0 hj']; simp
      rw [← h1, ← h2]; exact heq
    exact congrArg Fin.val (hinj hget)

/-! ### Helpers on `getD`, maps over index ranges, and Python slices -/

instance : IsTotal ℚ (fun x y : ℚ => y ≤ x) := ⟨fun a b => le_total b a⟩

instance : IsTrans ℚ (fun x y : ℚ => y ≤ x) :=
  ⟨fun _ _ _ h1 h2 => le_trans h2 h1⟩

instance : IsAntisymm ℚ (fun x y : ℚ => y ≤ x) :=
  ⟨fun _ _ h1 h2 => le_antisymm h2 h1⟩

theorem getD_map_lt {α β : Type} {l : List α} {f : α → β} {i : ℕ}
    (h : i < l.length) (d : β) (d' : α) :
    (l.map f).getD i d = f (l.getD i d') := by
  rw [List.getD_eq_getElem _ _ (by simpa using h), List.getElem_map,
    List.getD_eq_getElem _ _ h]

theorem getD_map_range {α : Type} (l : List α) (d : α) :
    (List.range l.length).map (fun x => l.getD x d) = l := by
  apply List.ext_getElem
  · simp
  · intro i h1 h2
    rw [List.getElem_map, List.getElem_range, List.getD_eq_getElem _ _ h2]

theorem idxAt_range (l : List ℕ) : idxAt l (List.range l.length) = l :=
  getD_map_range l 0

theorem valuesAt_range (v : List ℚ) : valuesAt v (List.range v.length) = v :=
  getD_map_range v 0

theorem idxAt_range_reverse (l : List ℕ) :
    idxAt l ((List.range l.length).reverse) = l.reverse := by
  unfold idxAt
  rw [List.map_reverse]
  exact congrArg List.reverse (idxAt_range l)

theorem idxAt_perm {l s : List ℕ} (hp : s.Perm (List.range l.length)) :
    (idxAt l s).Perm l := by
  have h := hp.map (fun x => l.getD x 0)
  rw [show (List.range l.length).map (fun x => l.getD x 0) = l from
    getD_map_range l 0] at h
  exact h

theorem valuesAt_perm {v : List ℚ} {s : List ℕ}
    (hp : s.Perm (List.range v.length)) : (valuesAt v s).Perm v := by
  have h := hp.map (fun x => v.getD x 0)
  rw [show (List.range v.length).map (fun x => v.getD x 0) = v from
    getD_map_range v 0] at h
  exact h

theorem valuesAt_length (v : List ℚ) (s : List ℕ) :
    (valuesAt v s).length = s.length := by
  simp [valuesAt]

theorem valuesAt_reverse (v : List ℚ) (s : List ℕ) :
    valuesAt v s.reverse = (valuesAt v s).reverse := by
  simp [valuesAt, List.map_reverse]

theorem valuesAt_idxAt (row : List ℚ) (idxs : List ℕ) {s : List ℕ}
    (hs : ∀ x ∈ s, x < idxs.length) :
    valuesAt row (idxAt idxs s) = valuesAt (valuesAt row idxs) s := by
  unfold valuesAt idxAt
  rw [List.map_map]
  refine List.map_congr_left ?_
  intro x hx
  have hx' := hs x hx
  simp only [Function.comp_apply]
  rw [getD_map_lt hx' (0 : ℚ) 0]

theorem negRow_getD (row : List ℚ) (i : ℕ) :
    (negRow row).getD i 0 = -(row.getD i 0) := by
  unfold negRow
  have h := List.getD_map row (0 : ℚ) (n := i) (fun x => -x)
  simpa using h

theorem negRow_length (row : List ℚ) : (negRow row).length = row.length := by
  simp [negRow]

theorem pySliceFrom_negNat {α : Type} (l : List α) {k : ℕ} (hk : 1 ≤ k) :
    pySliceFrom l (-(k : ℤ)) = l.drop (l.length - k) := by
  unfold pySliceFrom
  rw [if_neg (by omega)]
  congr 1
  simp

theorem pySliceTo_natCast {α : Type} (l : List α) (k : ℕ) :
    pySliceTo l (k : ℤ) = l.take k := by
  unfold pySliceTo
  rw [if_pos (by positivity)]
  simp

theorem pySliceFrom_zero {α : Type} (l : List α) : pySliceFrom l 0 = l := by
  simp [pySliceFrom]

/-! ### Normal forms of `topk_indices` on valid inputs -/

theorem argpartition_neg_ok (a : List ℚ) (k : ℕ) (h1 : 1 ≤ k)
    (h2 : k ≤ a.length) : argpartition a (-(k : ℤ)) = .ok (argsortQ a) := by
  simp only [argpartition]
  rw [if_pos (by omega : -(k : ℤ) < 0), if_neg (by omega)]

theorem argpartition_pred_ok (a : List ℚ) (k : ℕ) (h2 : k ≤ a.length) :
    argpartition a ((k : ℤ) - 1) = .ok (argsortQ a) := by
  simp only [argpartition]
  split_ifs <;> first | rfl | (exfalso; omega)

theorem topk_indices_desc_eq (a : List ℚ) (k : ℕ) (h1 : 1 ≤ k)
    (h2 : k ≤ a.length) :
    topk_indices a (k : ℤ) "desc" =
      .ok (((argsortQ a).drop (a.length - k)).reverse) := by
  unfold topk_indices
  rw [if_neg (by omega : ¬ (k : ℤ) < 0)]
  simp only []
  rw [if_neg (by omega : ¬ ((a.length : ℤ) < (k : ℤ))), if_pos trivial,
    argpartition_neg_ok a k h1 h2]
  simp only []
  rw [pySliceFrom_negNat _ h1, argsortQ_length]
  have hdropsorted : List.Sorted (idxLe a) ((argsortQ a).drop (a.length - k)) :=
    List.Pairwise.sublist (List.drop_sublist _ _) (argsortQ_sorted a)
  have hmono := valuesAt_sorted_of_sorted hdropsorted
  rw [argsortQ_of_monotone hmono, valuesAt_length, idxAt_range_reverse]

theorem topk_indices_asc_eq (a : List ℚ) (k : ℕ) (h2 : k ≤ a.length) :
    topk_indices a (k : ℤ) "asc" = .ok ((argsortQ a).take k) := by
  unfold topk_indices
  rw [if_neg (by omega : ¬ (k : ℤ) < 0)]
  simp only []
  rw [if_neg (by omega : ¬ ((a.length : ℤ) < (k : ℤ))),
    if_neg (by decide : ¬ ("asc" : String) = "desc"), if_pos trivial,
    argpartition_pred_ok a k h2]
  simp only []
  rw [pySliceTo_natCast]
  have htakesorted : List.Sorted (idxLe a) ((argsortQ a).take k) :=
    List.Pairwise.sublist (List.take_sublist _ _) (argsortQ_sorted a)
  have hmono := valuesAt_sorted_of_sorted htakesorted
  rw [argsortQ_of_monotone hmono, valuesAt_length, idxAt_range]

/-! ### The take/drop of the sorted permutation is a correct top-k -/

theorem isTopKAsc_take (a : List ℚ) (k : ℕ) (h2 : k ≤ a.length) :
    IsTopKAsc a k ((argsortQ a).take k) := by
  have hs := argsortQ_sorted a
  have hlen := argsortQ_length a
  refine ⟨?_, ?_, ?_, ?_, ?_⟩
  · rw [List.length_take, hlen]; omega
  · exact List.Nodup.sublist (List.take_sublist _ _) (argsortQ_nodup a)
  · intro i hi; exact mem_argsortQ.mp (List.take_subset _ _ hi)
  · exact valuesAt_sorted_of_sorted
      (List.Pairwise.sublist (List.take_sublist _ _) hs)
  · intro i hi j hj hnot
    have hjmem : j ∈ (argsortQ a).take k ++ (argsortQ a).drop k := by
      rw [List.take_append_drop]; exact mem_argsortQ.mpr hj
    rcases List.mem_append.mp hjmem with hjt | hjd
    · exact absurd hjt hnot
    · have hps : List.Pairwise (idxLe a)
          ((argsortQ a).take k ++ (argsortQ a).drop k) := by
        rw [List.take_append_drop]; exact hs
      have hle := (List.pairwise_append.mp hps).2.2 i hi j hjd
      exact hle.elim le_of_lt (fun hh => le_of_eq hh.1)

theorem isTopKDesc_drop (a : List ℚ) (k : ℕ) (h2 : k ≤ a.length) :
    IsTopKDesc a k (((argsortQ a).drop (a.length - k)).reverse) := by
  have hs := argsortQ_sorted a
  have hlen := argsortQ_length a
  refine ⟨?_, ?_, ?_, ?_, ?_⟩
  · rw [List.length_reverse, List.length_drop, hlen]; omega
  · exact List.nodup_reverse.mpr
      (List.Nodup.sublist (List.drop_sublist _ _) (argsortQ_nodup a))
  · intro i hi
    exact mem_argsortQ.mp
      (List.drop_subset _ _ (List.mem_reverse.mp hi))
  · rw [valuesAt_reverse, List.Sorted, List.pairwise_reverse]
    exact valuesAt_sorted_of_sorted
      (List.Pairwise.sublist (List.drop_sublist _ _) hs)
  · intro i hi j hj hnot
    have hi' : i ∈ (argsortQ a).drop (a.length - k) := List.mem_reverse.mp hi
    have hnot' : j ∉ (argsortQ a).drop (a.length - k) := fun hc =>
      hnot (List.mem_reverse.mpr hc)
    have hjmem : j ∈ (argsortQ a).take (a.length - k) ++
        (argsortQ a).drop (a.length - k) := by
      rw [List.take_append_drop]; exact mem_argsortQ.mpr hj
    rcases List.mem_append.mp hjmem with hjt | hjd
    · have hps : List.Pairwise (idxLe a)
          ((argsortQ a).take (a.length - k) ++
            (argsortQ a).drop (a.length - k)) := by
        rw [List.take_append_drop]; exact hs
      have hle := (List.pairwise_append.mp hps).2.2 j hjt i hi'
      exact hle.elim le_of_lt (fun hh => le_of_eq hh.1)
    · exact absurd hjd hnot'

/-! ### Row-level facts about `row_wise_top_k` -/

theorem values_argsortQ_sorted (v : List ℚ) :
    List.Sorted (· ≤ ·) (valuesAt v (argsortQ v)) :=
  valuesAt_sorted_of_sorted (argsortQ_sorted v)

theorem values_argsortQ_perm (v : List ℚ) :
    (valuesAt v (argsortQ v)).Perm v :=
  valuesAt_perm (argsortQ_perm v)

theorem rowSortStep_perm (row : List ℚ) (idxs : List ℕ) (ord : String) :
    (rowSortStep row idxs ord).Perm idxs := by
  unfold rowSortStep
  simp only []
  have hp : (argsortQ (valuesAt row idxs)).Perm (List.range idxs.length) := by
    have h := argsortQ_perm (valuesAt row idxs)
    rwa [valuesAt_length] at h
  by_cases hord : ord = "desc"
  · rw [if_pos hord]
    exact idxAt_perm ((List.reverse_perm _).trans hp)
  · rw [if_neg hord]
    exact idxAt_perm hp

theorem rowSortStep_values_asc (row : List ℚ) (idxs : List ℕ) {ord : String}
    (hord : ¬ ord = "desc") :
    valuesAt row (rowSortStep row idxs ord) =
      valuesAt (valuesAt row idxs) (argsortQ (valuesAt row idxs)) := by
  unfold rowSortStep
  simp only [if_neg hord]
  apply valuesAt_idxAt
  intro x hx
  have hx' := mem_argsortQ.mp hx
  rwa [valuesAt_length] at hx'

theorem rowSortStep_values_desc (row : List ℚ) (idxs : List ℕ) :
    valuesAt row (rowSortStep row idxs "desc") =
      (valuesAt (valuesAt row idxs) (argsortQ (valuesAt row idxs))).reverse := by
  unfold rowSortStep
  simp only []
  rw [if_pos trivial, valuesAt_idxAt, valuesAt_reverse]
  intro x hx
  have hx' := mem_argsortQ.mp (List.mem_reverse.mp hx)
  rwa [valuesAt_length] at hx'

theorem ite_error_ok_inv {ε α : Type} {c : Prop} [Decidable c] {e : ε}
    {x : Except ε α} {r : α}
    (h : (if c then (Except.error e : Except ε α) else x) = .ok r) :
    x = .ok r := by
  by_cases hc : c
  · rw [if_pos hc] at h; cases h
  · rwa [if_neg hc] at h

theorem row_wise_ok_false_inv {a : List (List ℚ)} {ncols : ℕ} {k : ℤ}
    {ord : String} {r : List (List ℕ)}
    (h : row_wise_top_k a ncols k ord false = .ok r) :
    r = a.map (fun row => rowTopIdx row k ord) := by
  unfold row_wise_top_k at h
  have h2 := ite_error_ok_inv (ite_error_ok_inv (ite_error_ok_inv h))
  rw [if_pos (by simp)] at h2
  exact (Except.ok.inj h2).symm

theorem row_wise_ok_true_inv {a : List (List ℚ)} {ncols : ℕ} {k : ℤ}
    {ord : String} {r : List (List ℕ)}
    (h : row_wise_top_k a ncols k ord true = .ok r) :
    r = a.map (fun row => rowSortStep row (rowTopIdx row k ord) ord) := by
  unfold row_wise_top_k at h
  have h2 := ite_error_ok_inv (ite_error_ok_inv (ite_error_ok_inv h))
  rw [if_neg (by simp)] at h2
  exact (Except.ok.inj h2).symm

theorem row_wise_true_ok (a : List (List ℚ)) (ncols k : ℕ) (ord : String)
    (h1 : 1 ≤ k) (h2 : k ≤ ncols) (hord : ord = "asc" ∨ ord = "desc") :
    row_wise_top_k a ncols (k : ℤ) ord true =
      .ok (a.map (fun row => rowSortStep row (rowTopIdx row (k : ℤ) ord) ord))
    := by
  have hk0 : ¬ ((k : ℤ) - 1 < 0) := by omega
  unfold row_wise_top_k
  rw [if_neg (by omega : ¬ ((ncols : ℤ) < (k : ℤ))),
    if_neg (not_not_intro hord)]
  simp only []
  rw [if_neg hk0,
    if_neg (by omega : ¬ ((a.length ≠ 0 ∧ ncols ≠ 0) ∧
      ((k : ℤ) - 1 < 0 ∨ (ncols : ℤ) ≤ (k : ℤ) - 1)))]
  rfl

/-! ### Row-level normal forms -/

theorem rowTopIdx_asc (row : List ℚ) (k : ℕ) :
    rowTopIdx row (k : ℤ) "asc" = (argsortQ row).take k := by
  unfold rowTopIdx
  rw [if_neg (by decide : ¬ ("asc" : String) = "desc"), pySliceTo_natCast]

theorem rowSortStep_asc_of_sorted (row : List ℚ) {idxs : List ℕ}
    (hsorted : List.Sorted (idxLe row) idxs) :
    rowSortStep row idxs "asc" = idxs := by
  unfold rowSortStep
  simp only []
  rw [if_neg (by decide : ¬ ("asc" : String) = "desc"),
    argsortQ_of_monotone (valuesAt_sorted_of_sorted hsorted), valuesAt_length,
    idxAt_range]

theorem argsortQ_negRow_of_nodup {row : List ℚ} (h : row.Nodup) :
    argsortQ (negRow row) = (argsortQ row).reverse := by
  apply argsortQ_eq_of_sorted
  · rw [negRow_length]
    exact (List.reverse_perm _).trans (argsortQ_perm row)
  · rw [List.Sorted, List.pairwise_reverse]
    refine (argsortQ_strict_of_nodup h).imp ?_
    intro i j hij
    refine Or.inl ?_
    rw [negRow_getD, negRow_getD]
    exact neg_lt_neg hij

theorem rowTopIdx_desc_of_nodup {row : List ℚ} (h : row.Nodup) (k : ℕ) :
    rowTopIdx row (k : ℤ) "desc" =
      ((argsortQ row).drop (row.length - k)).reverse := by
  unfold rowTopIdx
  rw [if_pos rfl, pySliceTo_natCast, argsortQ_negRow_of_nodup h,
    List.take_reverse, argsortQ_length]

theorem rowSortStep_desc_of_strict {row : List ℚ} {idxs : List ℕ}
    (hstrict : List.Pairwise (fun i j => row.getD j 0 < row.getD i 0) idxs) :
    rowSortStep row idxs "desc" = idxs := by
  unfold rowSortStep
  simp only []
  have hv : List.Pairwise (fun x y : ℚ => y < x) (valuesAt row idxs) := by
    unfold valuesAt; rw [List.pairwise_map]; exact hstrict
  rw [if_pos trivial, argsortQ_of_strict_decr hv, valuesAt_length,
    List.reverse_reverse, idxAt_range]

theorem strict_desc_drop_reverse {row : List ℚ} (h : row.Nodup) (k : ℕ) :
    List.Pairwise (fun i j => row.getD j 0 < row.getD i 0)
      (((argsortQ row).drop (row.length - k)).reverse) := by
  rw [List.pairwise_reverse]
  exact List.Pairwise.sublist (List.drop_sublist _ _)
    (argsortQ_strict_of_nodup h)

/-! ### Claim theorems -/

/-- C1 (amended): for every vector `values` of length `N` and every
`0 ≤ k ≤ N`, `topk_indices(values, k, ordering)` returns exactly `k`
pairwise-distinct valid indices, with values non-increasing (`'desc'`) resp.
non-decreasing (`'asc'`) along the result and every returned value
dominating every non-returned value — for ordering `'asc'` without further
restriction, and for ordering `'desc'` except in the single case `k = 0`
with `N ≥ 1`, where the slice `[-0:]` keeps the whole array and all `N`
indices are returned sorted descending (see the counterexample). -/
theorem claim_C1_topk_correct (a : List ℚ) (k : ℕ) (hk : k ≤ a.length) :
    (1 ≤ k ∨ a.length = 0 →
      ∃ r, topk_indices a (k : ℤ) "desc" = .ok r ∧ IsTopKDesc a k r) ∧
    (∃ r, topk_indices a (k : ℤ) "asc" = .ok r ∧ IsTopKAsc a k r) := by
  constructor
  · intro h1
    rcases h1 with h1 | h0
    · exact ⟨_, topk_indices_desc_eq a k h1 hk, isTopKDesc_drop a k hk⟩
    · obtain rfl : a = [] := List.length_eq_zero.mp h0
      obtain rfl : k = 0 := by omega
      refine ⟨[], by decide, rfl, List.nodup_nil, by simp, ?_, by simp⟩
      simp [valuesAt]
  · exact ⟨_, topk_indices_asc_eq a k hk, isTopKAsc_take a k hk⟩

/-- C1 counterexample: on `values = [1, 2]`, `k = 0`, `'desc'`, the function
returns `[1, 0]` — two indices, not the zero indices the claim requires
(`[-0:]` slices the whole array). -/
theorem claim_C1_counterexample :
    topk_indices [(1 : ℚ), 2] 0 "desc" = .ok [1, 0] ∧
      ¬ ∃ r, topk_indices [(1 : ℚ), 2] 0 "desc" = .ok r ∧ r.length = 0 := by
  refine ⟨by decide, ?_⟩
  rintro ⟨r, hr, hlen⟩
  have h0 : topk_indices [(1 : ℚ), 2] 0 "desc" = .ok [1, 0] := by decide
  rw [h0] at hr
  obtain rfl : r = [1, 0] := (Except.ok.inj hr).symm
  exact absurd hlen (by decide)

/-- Witness for C1 at `values = [3, 1, 2]`, `k = 2`. -/
theorem claim_C1_witness :
    (∃ r, topk_indices [(3 : ℚ), 1, 2] ((2 : ℕ) : ℤ) "desc" = .ok r ∧
      IsTopKDesc [(3 : ℚ), 1, 2] 2 r) ∧
    (∃ r, topk_indices [(3 : ℚ), 1, 2] ((2 : ℕ) : ℤ) "asc" = .ok r ∧
      IsTopKAsc [(3 : ℚ), 1, 2] 2 r) :=
  ⟨(claim_C1_topk_correct [(3 : ℚ), 1, 2] 2 (by decide)).1
      (Or.inl (by decide)),
   (claim_C1_topk_correct [(3 : ℚ), 1, 2] 2 (by decide)).2⟩

/-- C5: `topk_indices` rejects `k < 0` with exactly
`"k must be non-negative, got {k}"` and `k > N` with exactly
`"k ({k}) cannot be larger than array size ({N})"`, for every ordering,
producing no result. -/
theorem claim_C5_topk_validation (a : List ℚ) (k : ℤ) (ordering : String) :
    (k < 0 → topk_indices a k ordering =
      .error (.valueError ("k must be non-negative, got " ++ toString k))) ∧
    ((a.length : ℤ) < k → topk_indices a k ordering =
      .error (.valueError ("k (" ++ toString k ++
        ") cannot be larger than array size (" ++ toString a.length ++ ")")))
    := by
  constructor
  · intro h
    unfold topk_indices
    rw [if_pos h]
  · intro h
    unfold topk_indices
    rw [if_neg (by omega : ¬ k < 0)]
    simp only []
    rw [if_pos h]

/-- Witness for C5: `k = -2` on a length-4 vector and `k = 4` on a length-3
vector, with the exact messages of the spec. -/
theorem claim_C5_witness :
    topk_indices [(1 : ℚ), 2, 3, 4] (-2) "asc" =
      .error (.valueError "k must be non-negative, got -2") ∧
    topk_indices [(5 : ℚ), 6, 7] 4 "asc" =
      .error (.valueError "k (4) cannot be larger than array size (3)") :=
  ⟨(claim_C5_topk_validation [(1 : ℚ), 2, 3, 4] (-2) "asc").1 (by decide),
   (claim_C5_topk_validation [(5 : ℚ), 6, 7] 4 "asc").2 (by decide)⟩

/-- C4 (amended): `row_wise_top_k` rejects `top_k > C` with exactly
`"top_k ({top_k}) cannot be larger than the number of columns ({C})."` and,
when `top_k ≤ C`, a `sort_order` other than `'asc'`/`'desc'` with exactly
`"sort_order must be either 'asc' or 'desc'."`, before any computation.
Negative `top_k` is NOT validated (see the counterexample); the rank check
is enforced by the model's 2-D input type. -/
theorem claim_C4_validation (a : List (List ℚ)) (ncols : ℕ) (top_k : ℤ)
    (sort_order : String) (sw : Bool) :
    ((ncols : ℤ) < top_k → row_wise_top_k a ncols top_k sort_order sw =
      .error (.valueError ("top_k (" ++ toString top_k ++
        ") cannot be larger than the number of columns (" ++
        toString ncols ++ ")."))) ∧
    (top_k ≤ (ncols : ℤ) → ¬ sort_order = "asc" → ¬ sort_order = "desc" →
      row_wise_top_k a ncols top_k sort_order sw =
        .error (.valueError
          "sort_order must be either \x27asc\x27 or \x27desc\x27.")) := by
  constructor
  · intro h
    unfold row_wise_top_k
    rw [if_pos h]
  · intro h h1 h2
    unfold row_wise_top_k
    rw [if_neg (by omega : ¬ (ncols : ℤ) < top_k),
      if_pos (not_or.mpr ⟨h1, h2⟩)]

/-- C4 counterexample: `top_k = -1` on a 2×3 matrix is not rejected — the
call returns an ordinary result instead of failing with `InvalidArgument`. -/
theorem claim_C4_counterexample :
    row_wise_top_k [[(1 : ℚ), 2, 3], [4, 5, 6]] 3 (-1) "asc" true =
      .ok [[0, 1], [0, 1]] := by decide

/-- Witness for C4: `top_k = 5` on a 4-column matrix, and an unsupported
`sort_order`, with the exact messages. -/
theorem claim_C4_witness :
    row_wise_top_k [[(1 : ℚ), 2, 3, 4]] 4 5 "asc" true =
      .error (.valueError
        "top_k (5) cannot be larger than the number of columns (4).") ∧
    row_wise_top_k [[(1 : ℚ), 2, 3, 4]] 4 2 "bad" true =
      .error (.valueError
        "sort_order must be either \x27asc\x27 or \x27desc\x27.") :=
  ⟨(claim_C4_validation [[(1 : ℚ), 2, 3, 4]] 4 5 "asc" true).1 (by decide),
   (claim_C4_validation [[(1 : ℚ), 2, 3, 4]] 4 2 "bad" true).2
     (by decide) (by decide) (by decide)⟩

/-- C6 (code bug, evaluation at the failing input): with `k = 0` and
`'desc'` on a nonempty vector the Python slice `[-0:]` keeps the whole
partition, so `topk_indices([5.0], 0, 'desc')` returns `[0]` (all indices,
sorted descending) instead of the empty result promised by the spec and by
the function's own docstring.  Every other part of the claim holds of the
code: `'asc'` with `k = 0` returns empty, the empty vector returns empty
for both orderings (numpy skips the `argpartition` bounds check on size-0
arrays, as the repo's `test_empty_array` tests exercise), and the 2-D entry
point returns the promised R×0 result. -/
theorem claim_C6_k_zero_behaviour :
    topk_indices [(5 : ℚ)] 0 "desc" = .ok [0] ∧
    topk_indices [(5 : ℚ)] 0 "asc" = .ok [] ∧
    topk_indices ([] : List ℚ) 0 "desc" = .ok [] ∧
    topk_indices ([] : List ℚ) 0 "asc" = .ok [] ∧
    row_wise_top_k [[(1 : ℚ), 2, 3]] 3 0 "desc" true = .ok [[]] :=
  ⟨by decide, by decide, by decide, by decide, by decide⟩

/-- C8: the spec's concrete scenarios, evaluated exactly: the 1-D input is
`[1.2, 3.4, 0.8, 2.3]` (as exact rationals `12/10, …`) with `k = 2`
descending, and the 2-D input is the 3×5 integer matrix with `k = 3`
ascending and sorting within rows. -/
theorem claim_C8_concrete :
    topk_indices [mkRat 12 10, mkRat 34 10, mkRat 8 10, mkRat 23 10] 2 "desc"
        = .ok [1, 3] ∧
    row_wise_top_k [[(10 : ℚ), 50, 20, 80, 70], [9, 1, 7, 3, 5],
        [99, 55, 77, 66, 88]] 5 3 "asc" true =
      .ok [[0, 2, 1], [1, 3, 4], [1, 3, 2]] :=
  ⟨by decide, by decide⟩

/-- C2: whenever both calls return, every row of the
`sort_within_rows = True` result has its values sorted most-extreme-first
(non-increasing for `'desc'`, non-decreasing for `'asc'`), and independently
sorting the values selected by the `sort_within_rows = False` call
reproduces exactly the value order of the `True` call. -/
theorem claim_C2_sorted_within_rows {a : List (List ℚ)} {ncols : ℕ} {k : ℤ}
    {ord : String} {rT rF : List (List ℕ)}
    (hT : row_wise_top_k a ncols k ord true = .ok rT)
    (hF : row_wise_top_k a ncols k ord false = .ok rF) :
    ∀ i, i < a.length →
      (ord = "desc" →
        List.Sorted (fun x y : ℚ => y ≤ x)
          (valuesAt (a.getD i []) (rT.getD i [])) ∧
        List.insertionSort (fun x y : ℚ => y ≤ x)
          (valuesAt (a.getD i []) (rF.getD i [])) =
          valuesAt (a.getD i []) (rT.getD i [])) ∧
      (ord = "asc" →
        List.Sorted (fun x y : ℚ => x ≤ y)
          (valuesAt (a.getD i []) (rT.getD i [])) ∧
        List.insertionSort (fun x y : ℚ => x ≤ y)
          (valuesAt (a.getD i []) (rF.getD i [])) =
          valuesAt (a.getD i []) (rT.getD i [])) := by
  intro i hi
  have hF' := row_wise_ok_false_inv hF
  have hT' := row_wise_ok_true_inv hT
  subst hF' hT'
  have e1 : (a.map (fun row => rowTopIdx row k ord)).getD i [] =
      rowTopIdx (a.getD i []) k ord := getD_map_lt hi [] []
  have e2 : (a.map (fun row =>
      rowSortStep row (rowTopIdx row k ord) ord)).getD i [] =
      rowSortStep (a.getD i []) (rowTopIdx (a.getD i []) k ord) ord :=
    getD_map_lt hi [] []
  rw [e1, e2]
  constructor
  · rintro rfl
    refine ⟨?_, ?_⟩
    · rw [rowSortStep_values_desc, List.Sorted, List.pairwise_reverse]
      exact values_argsortQ_sorted _
    · exact List.eq_of_perm_of_sorted
        ((List.perm_insertionSort _ _).trans
          (((rowSortStep_perm _ _ _).map _).symm))
        (List.sorted_insertionSort _ _)
        (by rw [rowSortStep_values_desc, List.Sorted, List.pairwise_reverse]
            exact values_argsortQ_sorted _)
  · rintro rfl
    refine ⟨?_, ?_⟩
    · rw [rowSortStep_values_asc _ _ (by decide)]
      exact values_argsortQ_sorted _
    · exact List.eq_of_perm_of_sorted
        ((List.perm_insertionSort _ _).trans
          (((rowSortStep_perm _ _ _).map _).symm))
        (List.sorted_insertionSort _ _)
        (by rw [rowSortStep_values_asc _ _ (by decide)]
            exact values_argsortQ_sorted _)

/-- Witness for C2 at the 1×3 matrix `[[1, 3, 2]]`, `k = 2`, `'desc'`. -/
theorem claim_C2_witness :
    ("desc" = "desc" →
      List.Sorted (fun x y : ℚ => y ≤ x)
        (valuesAt ([[(1 : ℚ), 3, 2]].getD 0 [])
          (([[1, 2]] : List (List ℕ)).getD 0 [])) ∧
      List.insertionSort (fun x y : ℚ => y ≤ x)
        (valuesAt ([[(1 : ℚ), 3, 2]].getD 0 [])
          (([[1, 2]] : List (List ℕ)).getD 0 [])) =
        valuesAt ([[(1 : ℚ), 3, 2]].getD 0 [])
          (([[1, 2]] : List (List ℕ)).getD 0 [])) ∧
    ("desc" = "asc" →
      List.Sorted (fun x y : ℚ => x ≤ y)
        (valuesAt ([[(1 : ℚ), 3, 2]].getD 0 [])
          (([[1, 2]] : List (List ℕ)).getD 0 [])) ∧
      List.insertionSort (fun x y : ℚ => x ≤ y)
        (valuesAt ([[(1 : ℚ), 3, 2]].getD 0 [])
          (([[1, 2]] : List (List ℕ)).getD 0 [])) =
        valuesAt ([[(1 : ℚ), 3, 2]].getD 0 [])
          (([[1, 2]] : List (List ℕ)).getD 0 [])) :=
  @claim_C2_sorted_within_rows [[(1 : ℚ), 3, 2]] 3 2 "desc" [[1, 2]] [[1, 2]]
    (by decide) (by decide) 0 (by decide)

/-- C3: whenever both calls return, each row of the
`sort_within_rows = False` result selects exactly the same set of column
indices as the corresponding row of the `sort_within_rows = True` result. -/
theorem claim_C3_set_equivalence {a : List (List ℚ)} {ncols : ℕ} {k : ℤ}
    {ord : String} {rT rF : List (List ℕ)}
    (hT : row_wise_top_k a ncols k ord true = .ok rT)
    (hF : row_wise_top_k a ncols k ord false = .ok rF) :
    ∀ i, i < a.length →
      (rF.getD i []).toFinset = (rT.getD i []).toFinset := by
  intro i hi
  have hF' := row_wise_ok_false_inv hF
  have hT' := row_wise_ok_true_inv hT
  subst hF' hT'
  have e1 : (a.map (fun row => rowTopIdx row k ord)).getD i [] =
      rowTopIdx (a.getD i []) k ord := getD_map_lt hi [] []
  have e2 : (a.map (fun row =>
      rowSortStep row (rowTopIdx row k ord) ord)).getD i [] =
      rowSortStep (a.getD i []) (rowTopIdx (a.getD i []) k ord) ord :=
    getD_map_lt hi [] []
  rw [e1, e2]
  apply Finset.ext
  intro x
  simp only [List.mem_toFinset]
  exact ((rowSortStep_perm (a.getD i [])
    (rowTopIdx (a.getD i []) k ord) ord).mem_iff).symm

/-- Witness for C3 at the 1×3 matrix `[[4, 6, 5]]`, `k = 2`, `'asc'`. -/
theorem claim_C3_witness :
    (([[0, 2]] : List (List ℕ)).getD 0 []).toFinset =
      (([[0, 2]] : List (List ℕ)).getD 0 []).toFinset :=
  @claim_C3_set_equivalence [[(4 : ℚ), 6, 5]] 3 2 "asc" [[0, 2]] [[0, 2]]
    (by decide) (by decide) 0 (by decide)

/-- C10: on matrices whose rows have pairwise-distinct values, every row of
the vectorised 2-D implementation (with `sort_within_rows = True`) equals
the 1-D implementation applied to that row, for `1 ≤ k ≤ C` and both
orderings. -/
theorem claim_C10_row_agreement (a : List (List ℚ)) (ncols k : ℕ)
    (ord : String) (hrect : ∀ row ∈ a, row.length = ncols)
    (hnd : ∀ row ∈ a, row.Nodup) (h1 : 1 ≤ k) (h2 : k ≤ ncols)
    (hord : ord = "asc" ∨ ord = "desc") :
    ∃ rT, row_wise_top_k a ncols (k : ℤ) ord true = .ok rT ∧
      rT.length = a.length ∧
      ∀ i, i < a.length →
        topk_indices (a.getD i []) (k : ℤ) ord = .ok (rT.getD i []) := by
  refine ⟨_, row_wise_true_ok a ncols k ord h1 h2 hord, by simp, ?_⟩
  intro i hi
  have hrowmem : a.getD i [] ∈ a := by
    rw [List.getD_eq_getElem a [] hi]
    exact List.getElem_mem _
  have hlen : (a.getD i []).length = ncols := hrect _ hrowmem
  have hndr : (a.getD i []).Nodup := hnd _ hrowmem
  rw [getD_map_lt hi ([] : List ℕ) ([] : List ℚ)]
  rcases hord with hA | hD
  · subst hA
    rw [rowTopIdx_asc, rowSortStep_asc_of_sorted _
      (List.Pairwise.sublist (List.take_sublist _ _) (argsortQ_sorted _))]
    exact topk_indices_asc_eq _ k (by omega)
  · subst hD
    rw [rowTopIdx_desc_of_nodup hndr k,
      rowSortStep_desc_of_strict (strict_desc_drop_reverse hndr k)]
    exact topk_indices_desc_eq _ k h1 (by omega)

/-- Witness for C10 at the 2×2 matrix `[[2, 1], [1, 2]]`, `k = 1`, `'desc'`. -/
theorem claim_C10_witness :
    ∃ rT, row_wise_top_k [[(2 : ℚ), 1], [1, 2]] 2 ((1 : ℕ) : ℤ) "desc" true =
        .ok rT ∧
      rT.length = ([[(2 : ℚ), 1], [1, 2]] : List (List ℚ)).length ∧
      ∀ i, i < ([[(2 : ℚ), 1], [1, 2]] : List (List ℚ)).length →
        topk_indices ([[(2 : ℚ), 1], [1, 2]].getD i []) ((1 : ℕ) : ℤ) "desc" =
          .ok (rT.getD i []) :=
  claim_C10_row_agreement [[(2 : ℚ), 1], [1, 2]] 2 1 "desc" (by decide)
    (by decide) (by decide) (by decide) (Or.inr rfl)

/-! ### `normalize_vec` lemmas and claim C7 -/

theorem normSq_cons (x : ℚ) (t : List ℚ) :
    normSq (x :: t) = x * x + normSq t := by
  simp [normSq]

theorem normSq_nonneg (v : List ℚ) : 0 ≤ normSq v := by
  induction v with
  | nil => simp [normSq]
  | cons x t ih =>
    rw [normSq_cons]
    exact add_nonneg (mul_self_nonneg x) ih

theorem normSq_eq_zero_iff (v : List ℚ) : normSq v = 0 ↔ ∀ x ∈ v, x = 0 := by
  induction v with
  | nil => simp [normSq]
  | cons x t ih =>
    rw [normSq_cons]
    constructor
    · intro h
      have hx : 0 ≤ x * x := mul_self_nonneg x
      have ht : 0 ≤ normSq t := normSq_nonneg t
      have hx0 : x * x = 0 := by linarith
      have ht0 : normSq t = 0 := by linarith
      intro y hy
      rcases List.mem_cons.mp hy with rfl | hyt
      · exact mul_self_eq_zero.mp hx0
      · exact (ih.mp ht0) y hyt
    · intro h
      have hx0 : x = 0 := h x (List.mem_cons_self x t)
      have ht0 : normSq t = 0 :=
        ih.mpr (fun y hy => h y (List.mem_cons_of_mem x hy))
      rw [hx0, ht0]
      ring

theorem l2norm_eq_zero_iff (v : List ℚ) : l2norm v = 0 ↔ ∀ x ∈ v, x = 0 := by
  unfold l2norm
  rw [Real.sqrt_eq_zero (by exact_mod_cast normSq_nonneg v), Rat.cast_eq_zero]
  exact normSq_eq_zero_iff v

theorem l2norm_three_four : l2norm [3, 4] = 5 := by
  unfold l2norm
  have h : normSq [3, 4] = 25 := by
    rw [show ([3, 4] : List ℚ) = 3 :: 4 :: [] from rfl, normSq_cons,
      normSq_cons]
    simp [normSq]
    norm_num
  rw [h, show ((25 : ℚ) : ℝ) = (5 : ℝ) ^ 2 by norm_num]
  exact Real.sqrt_sq (by norm_num)

/-- C7: `normalize_vec` fails with `DivisionByZero` exactly when the L2 norm
of the input is zero (equivalently: on the all-zero vectors, so it never has
to divide by zero and return NaN or Inf), and otherwise divides each entry
by the norm.  On `[3.0, 4.0]` the result is exactly `[0.6, 0.8]` — inside
the spec's `1e-8` tolerance — and `[0.0, 0.0]` raises `DivisionByZero`. -/
theorem claim_C7_normalize :
    (∀ v : List ℚ,
      (normalize_vec v = .error .zeroDivisionError ↔ l2norm v = 0) ∧
      (normalize_vec v = .error .zeroDivisionError ↔ ∀ x ∈ v, x = 0) ∧
      normalize_vec v =
        (if ∀ x ∈ v, x = 0 then .error .zeroDivisionError
         else .ok (v.map (fun x => (x : ℝ) / l2norm v)))) ∧
    normalize_vec [3, 4] = .ok [(0.6 : ℝ), 0.8] ∧
    |(0.6 : ℝ) - 0.6| ≤ 1e-8 ∧ |(0.8 : ℝ) - 0.8| ≤ 1e-8 ∧
    normalize_vec [0, 0] = .error .zeroDivisionError := by
  have key : ∀ v : List ℚ,
      (normalize_vec v = .error .zeroDivisionError ↔ l2norm v = 0) ∧
      (normalize_vec v = .error .zeroDivisionError ↔ ∀ x ∈ v, x = 0) ∧
      normalize_vec v =
        (if ∀ x ∈ v, x = 0 then .error .zeroDivisionError
         else .ok (v.map (fun x => (x : ℝ) / l2norm v))) := by
    intro v
    by_cases h : l2norm v = 0
    · have hz : ∀ x ∈ v, x = 0 := (l2norm_eq_zero_iff v).mp h
      refine ⟨?_, ?_, ?_⟩
      · unfold normalize_vec
        rw [if_pos h]
        simp [h]
      · unfold normalize_vec
        rw [if_pos h]
        exact iff_of_true rfl hz
      · unfold normalize_vec
        rw [if_pos h, if_pos hz]
    · have hz : ¬ ∀ x ∈ v, x = 0 := fun hc => h ((l2norm_eq_zero_iff v).mpr hc)
      refine ⟨?_, ?_, ?_⟩
      · unfold normalize_vec
        rw [if_neg h]
        simp [h]
      · unfold normalize_vec
        rw [if_neg h]
        simp [hz]
      · unfold normalize_vec
        rw [if_neg h, if_neg hz]
  refine ⟨key, ?_, by norm_num, by norm_num, ?_⟩
  · unfold normalize_vec
    rw [l2norm_three_four, if_neg (by norm_num : ¬ (5 : ℝ) = 0)]
    norm_num
  · exact ((key [0, 0]).2.1).mpr (by decide)

/-- Witness for C7: the concrete normalisation of `[3.0, 4.0]`. -/
theorem claim_C7_witness :
    normalize_vec [3, 4] = .ok [(0.6 : ℝ), 0.8] :=
  claim_C7_normalize.2.1

end PlPyUtils
